import Mathlib

/-! Shallow embedding of the predicate operations of the optimized octagon
abstract domain (opt_oct_predicate.c together with opt_oct_hmat.h), and
proofs about their behaviour.  Matrix bounds are modelled as exact extended
rationals: the C implementation stores IEEE doubles and tracks the rounding
it may introduce through its conversion flag, which we carry as an abstract
boolean.  Half-matrix offsets are abstracted to canonical (i, j) slots; the
coherence swap of opt_matpos2 is kept. -/

/-- Extended upper bound: a finite rational or plus infinity, as stored in a
difference-bound matrix entry. -/
inductive Bnd where
  | fin (q : Rat)
  | inf
deriving DecidableEq

def Bnd.leb : Bnd → Bnd → Bool
  | _, .inf => true
  | .inf, .fin _ => false
  | .fin a, .fin b => decide (a ≤ b)

def Bnd.ltb : Bnd → Bnd → Bool
  | .inf, _ => false
  | .fin _, .inf => true
  | .fin a, .fin b => decide (a < b)

instance : LE Bnd := ⟨fun a b => Bnd.leb a b = true⟩

instance : LT Bnd := ⟨fun a b => Bnd.ltb a b = true⟩

instance (a b : Bnd) : Decidable (a ≤ b) :=
  inferInstanceAs (Decidable (Bnd.leb a b = true))

instance (a b : Bnd) : Decidable (a < b) :=
  inferInstanceAs (Decidable (Bnd.ltb a b = true))

/-- Saturating addition of bounds: any sum with plus infinity is plus
infinity. -/
def Bnd.add : Bnd → Bnd → Bnd
  | .inf, _ => .inf
  | .fin _, .inf => .inf
  | .fin a, .fin b => .fin (a + b)

def Bnd.mul2 : Bnd → Bnd
  | .inf => .inf
  | .fin a => .fin (2 * a)

def Bnd.half : Bnd → Bnd
  | .inf => .inf
  | .fin a => .fin (a / 2)

def Bnd.bmin : Bnd → Bnd → Bnd
  | .inf, y => y
  | .fin a, .inf => .fin a
  | .fin a, .fin b => .fin (min a b)

/-- Lower endpoint of an interval: minus infinity or a finite rational. -/
inductive LoB where
  | ninf
  | fin (q : Rat)
deriving DecidableEq

def LoB.leb : LoB → LoB → Bool
  | .ninf, _ => true
  | .fin _, .ninf => false
  | .fin a, .fin b => decide (a ≤ b)

/-- Modelled from the spec: elina_interval_t (external collaborator, only
constructors and accessors are used); an interval with a lower and an upper
endpoint. -/
structure elina_interval where
  inf : LoB
  sup : Bnd
deriving DecidableEq

/-- Modelled from the spec: elina_interval_set_top, the unconstrained
interval. -/
def elina_interval_top : elina_interval := ⟨LoB.ninf, Bnd.inf⟩

/-- Modelled from the spec: elina_interval_set_bottom, the canonical empty
interval with lower endpoint above the upper one. -/
def elina_interval_bottom : elina_interval := ⟨LoB.fin 1, Bnd.fin (-1)⟩

/-- Negated half of an upper bound, used as a lower interval endpoint. -/
def neg_half (b : Bnd) : LoB :=
  match b with
  | .inf => .ninf
  | .fin q => .fin (-(q / 2))

/-- Modelled from the spec: opt_interval_of_bounds (opt_oct_internal.h is
not among the sources); from bounds m1 on 2x and m2 on -2x it builds the
interval [-m1/2, m2/2] (spec, Bound projection). -/
def opt_interval_of_bounds (m1 m2 : Bnd) : elina_interval :=
  ⟨neg_half m1, Bnd.half m2⟩

/-- Modelled from the spec: opt_matpos2 (opt_oct_internal.h is not among the
sources).  The linear offset is abstracted to the canonical slot: (i, j)
itself when j is at most i or i+1 for even i, otherwise the coherence
partner (j xor 1, i xor 1). -/
def opt_matpos2 (i j : Nat) : Nat × Nat :=
  if j ≤ (i ||| 1) then (i, j) else (j ^^^ 1, i ^^^ 1)

/-- Read of the half-matrix at an arbitrary position through the canonical
slot of opt_matpos2. -/
def hget (m : Nat → Nat → Bnd) (i j : Nat) : Bnd :=
  m (opt_matpos2 i j).1 (opt_matpos2 i j).2

/-- Write of the half-matrix at the canonical slot of opt_matpos2. -/
def hset (m : Nat → Nat → Bnd) (i j : Nat) (v : Bnd) : Nat → Nat → Bnd :=
  fun a b => if a = (opt_matpos2 i j).1 ∧ b = (opt_matpos2 i j).2 then v else m a b

/-- Modelled from the spec: find on the component partition
(comp_list.c is not among the sources); the component containing v, or
none. -/
def find (acl : List (List Nat)) (v : Nat) : Option (List Nat) :=
  acl.find? fun cl => cl.contains v

/-- Modelled from the spec: is_connected on the component partition; whether
u and v share a component. -/
def is_connected (acl : List (List Nat)) (u v : Nat) : Bool :=
  match find acl u with
  | some cl => cl.contains v
  | none => false

def insert_sorted (v : Nat) : List Nat → List Nat
  | [] => [v]
  | x :: xs => if v ≤ x then v :: x :: xs else x :: insert_sorted v xs

/-- Modelled from the spec: to_sorted_array on a component list; the dense
index array of the component members in increasing order. -/
def to_sorted_array (cl : List Nat) : List Nat :=
  cl.foldr insert_sorted []

/-- A half-matrix value: the bound function, the dense flag and the
component partition (array of component lists), as in opt_oct_mat_t. -/
structure opt_oct_mat where
  mat : Nat → Nat → Bnd
  is_dense : Bool
  acl : List (List Nat)

/-- The implicit bound of a relation that is not represented: zero on the
diagonal and plus infinity elsewhere. -/
def implicit_bnd (i j : Nat) : Bnd :=
  if i = j then Bnd.fin 0 else Bnd.inf

/-- The logical entry of a half-matrix: the stored bound for a dense matrix
or for literals whose variables share a component, and the implicit top
bound otherwise (spec: a stored entry is meaningful only within a
component; independent variables have trivial constraints implicit). -/
def logical_get (oo : opt_oct_mat) (i j : Nat) : Bnd :=
  if oo.is_dense = true then hget oo.mat i j
  else
    match find oo.acl (i / 2), find oo.acl (j / 2) with
    | some c1, some c2 => if c1 = c2 then hget oo.mat i j else implicit_bnd i j
    | _, _ => implicit_bnd i j

/-- Check that the four entries relating variables i and j are trivial:
zero between equal literals, plus infinity otherwise
(opt_oct_hmat.h, check_trivial_relation). -/
def check_trivial_relation (m : Nat → Nat → Bnd) (i j : Nat) : Bool :=
  ((if i = j then
      (hget m (2*i) (2*j) == Bnd.fin 0) && (hget m (2*i+1) (2*j+1) == Bnd.fin 0)
    else
      (hget m (2*i) (2*j) == Bnd.inf) && (hget m (2*i+1) (2*j+1) == Bnd.inf)) &&
   (hget m (2*i) (2*j+1) == Bnd.inf)) && (hget m (2*i+1) (2*j) == Bnd.inf)

/-- Modelled from the spec: is_top_half (declared in opt_oct_hmat.h, its
definition is not among the sources); diagonal all zero and off-diagonal
all plus infinity, checked on every represented relation — in sparse mode
only relations within a component are represented, so an empty partition
suffices. -/
def is_top_half (oo : opt_oct_mat) (dim : Nat) : Bool :=
  if oo.is_dense = true then
    (List.range dim).all fun i => (List.range dim).all fun j =>
      check_trivial_relation oo.mat i j
  else
    oo.acl.all fun cl => cl.all fun u => cl.all fun v =>
      check_trivial_relation oo.mat u v

/-- Modelled from the spec: is_lequal_half (declared in opt_oct_hmat.h, its
definition is not among the sources); entry-wise comparison of the logical
bounds, with out-of-component entries of the left matrix read as plus
infinity. -/
def is_lequal_half (m1 m2 : opt_oct_mat) (dim : Nat) : Bool :=
  (List.range (2*dim)).all fun i => (List.range (2*dim)).all fun j =>
    Bnd.leb (logical_get m1 i j) (logical_get m2 i j)

/-- Modelled from the spec: is_equal_half (declared in opt_oct_hmat.h, its
definition is not among the sources); entry-wise equality of the logical
bounds. -/
def is_equal_half (m1 m2 : opt_oct_mat) (dim : Nat) : Bool :=
  (List.range (2*dim)).all fun i => (List.range (2*dim)).all fun j =>
    logical_get m1 i j == logical_get m2 i j

/-- One Floyd-Warshall pass over the given literals with pivot k
(spec, Strong closure, shortest path step). -/
def fw_step (lits : List Nat) (k : Nat) (m : Nat → Nat → Bnd) : Nat → Nat → Bnd :=
  lits.foldl
    (fun acc i => lits.foldl
      (fun acc2 j =>
        hset acc2 i j (Bnd.bmin (hget acc2 i j) (Bnd.add (hget acc2 i k) (hget acc2 k j))))
      acc)
    m

/-- Strengthening sweep (spec, Strong closure, strengthening step). -/
def strengthen_step (lits : List Nat) (m : Nat → Nat → Bnd) : Nat → Nat → Bnd :=
  lits.foldl
    (fun acc i => lits.foldl
      (fun acc2 j =>
        hset acc2 i j (Bnd.bmin (hget acc2 i j)
          (Bnd.half (Bnd.add (hget acc2 i (i ^^^ 1)) (hget acc2 (j ^^^ 1) j)))))
      acc)
    m

/-- Emptiness check: a negative diagonal entry signals an unsatisfiable
constraint set (spec, Strong closure, check emptiness). -/
def has_neg_diag (lits : List Nat) (m : Nat → Nat → Bnd) : Bool :=
  lits.any fun i => Bnd.ltb (hget m i i) (Bnd.fin 0)

/-- Processing of one variable: pivots 2v and 2v+1, a strengthening sweep
every two pivots, then the emptiness check. -/
def close_var (lits : List Nat) (m : Nat → Nat → Bnd) (v : Nat) : Option (Nat → Nat → Bnd) :=
  let m1 := fw_step lits (2*v) m
  let m2 := fw_step lits (2*v+1) m1
  let m3 := strengthen_step lits m2
  if has_neg_diag lits m3 then none else some m3

def set_diag_zero (lits : List Nat) (m : Nat → Nat → Bnd) : Nat → Nat → Bnd :=
  lits.foldl (fun acc i => hset acc i i (Bnd.fin 0)) m

/-- Strong closure over the literals of the given variables: the modified
Floyd-Warshall of the spec with final diagonal reset; none signals an empty
octagon. -/
def strong_closure_vars (vars : List Nat) (m : Nat → Nat → Bnd) : Option (Nat → Nat → Bnd) :=
  let lits := vars.foldr (fun v acc => 2*v :: (2*v+1) :: acc) []
  match vars.foldlM (fun acc v => close_var lits acc v) m with
  | none => none
  | some mr => some (set_diag_zero lits mr)

/-- Modelled from the spec: opt_hmat_strong_closure (declared in
opt_oct_hmat.h, its definition is not among the sources); dense mode closes
over all variables, sparse mode closes each component independently and
preserves the partition. -/
def opt_hmat_strong_closure (oo : opt_oct_mat) (dim : Nat) : Option opt_oct_mat :=
  if oo.is_dense = true then
    (strong_closure_vars (List.range dim) oo.mat).map fun mr => { oo with mat := mr }
  else
    match oo.acl.foldlM (fun acc cl => strong_closure_vars (to_sorted_array cl) acc) oo.mat with
    | none => none
    | some mr => some { oo with mat := mr }

/-- An octagon value: dimensions, integer dimensions, the possibly
non-closed matrix m and the cached strongly closed matrix; both absent
exactly for the bottom value (opt_oct_t). -/
structure opt_oct where
  dim : Nat
  intdim : Nat
  m : Option opt_oct_mat
  closed : Option opt_oct_mat

/-- The matrix an operation reads: closed when cached, m otherwise
(the C idiom o->closed ? o->closed : o->m). -/
def opt_oct.sel (o : opt_oct) : Option opt_oct_mat :=
  match o.closed with
  | some c => some c
  | none => o.m

/-- The matrix is_top reads: m when present, closed otherwise
(the C idiom o->m ? o->m : o->closed). -/
def opt_oct.selTop (o : opt_oct) : Option opt_oct_mat :=
  match o.m with
  | some mm => some mm
  | none => o.closed

/-- Modelled from the spec: opt_oct_cache_closure (its definition is not
among the sources); lazily computes and caches the strong closure of m when
no closed matrix is cached, nulling both matrices when closure discovers
emptiness (spec, Lifecycle and Strong closure return contract). -/
def opt_oct_cache_closure (o : opt_oct) : opt_oct :=
  match o.closed with
  | some _ => o
  | none =>
    match o.m with
    | none => o
    | some mm =>
      match opt_hmat_strong_closure mm o.dim with
      | some c => { o with closed := some c }
      | none => { o with m := none, closed := none }

/-- Modelled from the spec: the manager with the per-operation state the
predicates read and write — the algorithm option, the two result flags, the
compile-time completeness of the bound type (num_incomplete) and the
conversion-loss flag of the internal state (pr->conv). -/
structure elina_manager where
  algorithm : Int
  flag_exact : Bool
  flag_best : Bool
  num_incomplete : Bool
  conv : Bool
deriving DecidableEq

/-- Modelled from the spec: opt_oct_init_from_manager; flags accumulate
during an operation and are reset at the next entry. -/
def opt_oct_init_from_manager (man : elina_manager) : elina_manager :=
  { man with flag_exact := true, flag_best := true }

/-- Modelled from the spec: the flag_incomplete macro; the result is sound
but possibly not the best on the rationals. -/
def flag_incomplete (man : elina_manager) : elina_manager :=
  { man with flag_exact := false, flag_best := false }

/-- Modelled from the spec: the flag_algo macro, signalling that the
operand was not closed. -/
def flag_algo (man : elina_manager) : elina_manager :=
  flag_incomplete man

/-- Modelled from the spec: the flag_conv macro, signalling finite
precision conversion loss. -/
def flag_conv (man : elina_manager) : elina_manager :=
  flag_incomplete man

/-- Modelled from the spec: an elina_lincons0 constraint type. -/
inductive elina_constyp where
  | EQ
  | SUPEQ
  | SUP
  | EQMOD
  | DISEQ
deriving DecidableEq

/-- Modelled from the spec: elina_linexpr0_t consumed by value; an interval
constant plus interval coefficients per variable (a scalar coefficient is a
point interval). -/
structure elina_linexpr0 where
  cst : elina_interval
  terms : List (Nat × elina_interval)
deriving DecidableEq

/-- Modelled from the spec: elina_lincons0_t, a linear expression with a
constraint type. -/
structure elina_lincons0 where
  linexpr0 : elina_linexpr0
  constyp : elina_constyp
deriving DecidableEq

inductive opt_uexpr_type where
  | OPT_EMPTY
  | OPT_ZERO
  | OPT_UNARY
  | OPT_BINARY
  | OPT_OTHER
deriving DecidableEq

/-- The classification record of a linear expression: shape, variable
indices and their unit signs (opt_uexpr). -/
structure opt_uexpr where
  type : opt_uexpr_type
  i : Nat
  j : Nat
  coef_i : Int
  coef_j : Int
deriving DecidableEq

def coeff_is_empty (c : elina_interval) : Bool :=
  match c.inf, c.sup with
  | .fin a, .fin b => decide (b < a)
  | _, _ => false

def coeff_is_zero (c : elina_interval) : Bool :=
  c.inf == LoB.fin 0 && c.sup == Bnd.fin 0

def coeff_is_one (c : elina_interval) : Bool :=
  c.inf == LoB.fin 1 && c.sup == Bnd.fin 1

def coeff_is_minus_one (c : elina_interval) : Bool :=
  c.inf == LoB.fin (-1) && c.sup == Bnd.fin (-1)

/-- Negation of a lower endpoint into an upper bound: the scratch value a of
the constant interval [-a, b]. -/
def neg_lo : LoB → Bnd
  | .ninf => .inf
  | .fin q => .fin (-q)

/-- Modelled from the spec: opt_oct_uexpr_of_linexpr (its definition is not
among the sources); classifies a linear expression as EMPTY, ZERO, UNARY,
BINARY or OTHER, carrying variable indices, unit signs and the constant
interval [-a, b] as the scratch pair (a, b). -/
def opt_oct_uexpr_of_linexpr (e : elina_linexpr0) (_intdim _dim : Nat) :
    opt_uexpr × Bnd × Bnd :=
  let a := neg_lo e.cst.inf
  let b := e.cst.sup
  if e.terms.any fun t => coeff_is_empty t.2 then
    (⟨opt_uexpr_type.OPT_EMPTY, 0, 0, 1, 1⟩, a, b)
  else
    match e.terms.filter fun t => !coeff_is_zero t.2 with
    | [] => (⟨opt_uexpr_type.OPT_ZERO, 0, 0, 1, 1⟩, a, b)
    | [t] =>
      if coeff_is_one t.2 then (⟨opt_uexpr_type.OPT_UNARY, t.1, 0, 1, 1⟩, a, b)
      else if coeff_is_minus_one t.2 then (⟨opt_uexpr_type.OPT_UNARY, t.1, 0, -1, 1⟩, a, b)
      else (⟨opt_uexpr_type.OPT_OTHER, 0, 0, 1, 1⟩, a, b)
    | [t, s] =>
      let ci : Option Int :=
        if coeff_is_one t.2 then some 1
        else if coeff_is_minus_one t.2 then some (-1) else none
      let cj : Option Int :=
        if coeff_is_one s.2 then some 1
        else if coeff_is_minus_one s.2 then some (-1) else none
      match ci, cj with
      | some x, some y => (⟨opt_uexpr_type.OPT_BINARY, t.1, s.1, x, y⟩, a, b)
      | _, _ => (⟨opt_uexpr_type.OPT_OTHER, 0, 0, 1, 1⟩, a, b)
    | _ => (⟨opt_uexpr_type.OPT_OTHER, 0, 0, 1, 1⟩, a, b)

/-- The is_top predicate: reads m when present, otherwise closed; bottom
(both matrices null) is not top (opt_oct_predicate.c, opt_oct_is_top). -/
def opt_oct_is_top (_man : elina_manager) (o : opt_oct) : Bool :=
  match o.selTop with
  | none => false
  | some mm => is_top_half mm o.dim

/-- The inclusion predicate (opt_oct_predicate.c, opt_oct_is_leq); returns
the result together with the possibly mutated first operand and the
manager. -/
def opt_oct_is_leq (man : elina_manager) (o1 o2 : opt_oct) :
    Bool × opt_oct × elina_manager :=
  let man1 := opt_oct_init_from_manager man
  if o1.dim ≠ o2.dim ∨ o1.intdim ≠ o2.intdim then (false, o1, man1)
  else
    let o1c := if 0 ≤ man1.algorithm then opt_oct_cache_closure o1 else o1
    match o1c.closed, o1c.m with
    | none, none => (true, o1c, man1)
    | _, _ =>
      match o2.closed, o2.m with
      | none, none =>
        if o1c.closed.isSome = true then
          (false, o1c,
            if man1.num_incomplete = true ∨ 0 < o1c.intdim then flag_incomplete man1 else man1)
        else (false, o1c, flag_algo man1)
      | _, _ =>
        match o1c.sel, o2.sel with
        | some oo1, some oo2 => (is_lequal_half oo1 oo2 o1c.dim, o1c, man1)
        | _, _ => (false, o1c, man1)

/-- The equality predicate (opt_oct_predicate.c, opt_oct_is_eq); returns
the result together with the possibly mutated operands and the manager. -/
def opt_oct_is_eq (man : elina_manager) (o1 o2 : opt_oct) :
    Bool × opt_oct × opt_oct × elina_manager :=
  let man1 := opt_oct_init_from_manager man
  if o1.dim ≠ o2.dim ∨ o1.intdim ≠ o2.intdim then (false, o1, o2, man1)
  else
    let o1c := if 0 ≤ man1.algorithm then opt_oct_cache_closure o1 else o1
    let o2c := if 0 ≤ man1.algorithm then opt_oct_cache_closure o2 else o2
    match o1c.closed, o1c.m with
    | none, none =>
      match o2c.closed, o2c.m with
      | none, none => (true, o1c, o2c, man1)
      | _, _ =>
        if o2c.closed.isSome = true then
          (false, o1c, o2c,
            if man1.num_incomplete = true ∨ 0 < o1c.intdim then flag_incomplete man1 else man1)
        else (false, o1c, o2c, flag_algo man1)
    | _, _ =>
      match o2c.closed, o2c.m with
      | none, none =>
        if o1c.closed.isSome = true then
          (false, o1c, o2c,
            if man1.num_incomplete = true ∨ 0 < o1c.intdim then flag_incomplete man1 else man1)
        else (false, o1c, o2c, flag_algo man1)
      | _, _ =>
        match o1c.sel, o2c.sel with
        | some oo1, some oo2 => (is_equal_half oo1 oo2 o1c.dim, o1c, o2c, man1)
        | _, _ => (false, o1c, o2c, man1)

/-- The box projection (opt_oct_predicate.c, opt_oct_to_box): per-variable
intervals from the selected matrix, top for sparse variables outside every
component, bottom intervals for the empty octagon; flag_exact is set to
false for every non-empty octagon before the flag cascade. -/
def opt_oct_to_box (man : elina_manager) (o : opt_oct) :
    List elina_interval × opt_oct × elina_manager :=
  let man1 := opt_oct_init_from_manager man
  let o1 := if 0 ≤ man1.algorithm then opt_oct_cache_closure o else o
  match o1.sel with
  | none => (List.replicate o1.dim elina_interval_bottom, o1, man1)
  | some oo =>
    let res :=
      if oo.is_dense = false then
        oo.acl.foldl
          (fun acc cl => cl.foldl
            (fun acc2 i1 =>
              acc2.set i1 (opt_interval_of_bounds (oo.mat (2*i1) (2*i1+1)) (oo.mat (2*i1+1) (2*i1))))
            acc)
          (List.replicate o1.dim elina_interval_top)
      else
        (List.range o1.dim).map fun v =>
          opt_interval_of_bounds (oo.mat (2*v) (2*v+1)) (oo.mat (2*v+1) (2*v))
    let man2 := { man1 with flag_exact := false }
    let man3 :=
      if o1.closed.isNone = true then flag_algo man2
      else if man2.num_incomplete = true ∨ 0 < o1.intdim then flag_incomplete man2
      else if man2.conv = true then flag_conv man2
      else man2
    (res, o1, man3)

/-- The per-variable interval a bound query reads from a matrix: top for a
sparse variable outside every component, otherwise the interval of the two
unary bounds. -/
def bound_read_val (oo : opt_oct_mat) (d : Nat) : elina_interval :=
  if oo.is_dense = false ∧ find oo.acl d = none then elina_interval_top
  else opt_interval_of_bounds (oo.mat (2*d) (2*d+1)) (oo.mat (2*d+1) (2*d))

/-- The post-guard body of opt_oct_bound_dimension: bottom interval when
empty, read from closed when cached (optimal), otherwise from m with the
algorithm flag. -/
def bound_dim_read (o1 : opt_oct) (d : Nat) (man1 : elina_manager) :
    Option elina_interval × opt_oct × elina_manager :=
  match o1.closed, o1.m with
  | none, none => (some elina_interval_bottom, o1, man1)
  | some oo, _ =>
    (some (bound_read_val oo d), o1,
      if man1.num_incomplete = true ∨ 0 < o1.intdim then flag_incomplete man1
      else if man1.conv = true then flag_conv man1 else man1)
  | none, some oo => (some (bound_read_val oo d), o1, flag_algo man1)

/-- The bound query (opt_oct_predicate.c, opt_oct_bound_dimension): none
for an out-of-range dimension, otherwise the body after optional closure
caching. -/
def opt_oct_bound_dimension (man : elina_manager) (o : opt_oct) (d : Nat) :
    Option elina_interval × opt_oct × elina_manager :=
  let man1 := opt_oct_init_from_manager man
  if o.dim ≤ d then (none, o, man1)
  else bound_dim_read (if 0 ≤ man1.algorithm then opt_oct_cache_closure o else o) d man1

/-- The interval saturation predicate (opt_oct_predicate.c,
opt_oct_sat_interval): false for an out-of-range dimension, vacuously true
for the empty octagon, otherwise comparison of the variable bounds with the
given interval. -/
def opt_oct_sat_interval (man : elina_manager) (o : opt_oct) (d : Nat)
    (itv : elina_interval) : Bool × opt_oct × elina_manager :=
  let man1 := opt_oct_init_from_manager man
  if o.dim ≤ d then (false, o, man1)
  else
    let o1 := if 0 ≤ man1.algorithm then opt_oct_cache_closure o else o
    match o1.sel with
    | none => (true, o1, man1)
    | some oo =>
      let b := bound_read_val oo d
      if LoB.leb itv.inf b.inf && Bnd.leb b.sup itv.sup then (true, o1, man1)
      else if man1.num_incomplete = true ∨ 0 < o1.intdim then (false, o1, flag_incomplete man1)
      else if o1.closed.isNone = true then (false, o1, flag_algo man1)
      else if man1.conv = true then (false, o1, flag_conv man1)
      else (false, o1, man1)

/-- The unconstrained-dimension predicate (opt_oct_predicate.c,
opt_oct_is_dimension_unconstrained): false for an out-of-range dimension or
the empty octagon; sparse mode checks the rows and columns of d within its
component, a variable outside every component is unconstrained. -/
def opt_oct_is_dimension_unconstrained (_man : elina_manager) (o : opt_oct)
    (d : Nat) : Bool :=
  if o.dim ≤ d then false
  else
    match o.sel with
    | none => false
    | some oo =>
      let d2 := 2*d
      if oo.is_dense = false then
        match find oo.acl d with
        | none => true
        | some cl =>
          (to_sorted_array cl).all fun j1 =>
            if j1 = d then
              (hget oo.mat d2 (d2+1) == Bnd.inf) && (hget oo.mat (d2+1) d2 == Bnd.inf)
            else
              (hget oo.mat (2*j1) d2 == Bnd.inf) && (hget oo.mat (2*j1+1) d2 == Bnd.inf) &&
              (hget oo.mat (2*j1) (d2+1) == Bnd.inf) && (hget oo.mat (2*j1+1) (d2+1) == Bnd.inf)
      else
        (List.range (2*o.dim)).all fun i =>
          ((hget oo.mat i d2 == Bnd.inf) || (i == d2)) &&
          ((hget oo.mat i (d2+1) == Bnd.inf) || (i == d2+1))

/-- The flag cascade of the negative sat_lincons answers: incomplete when
the bound type or integer dimensions prevent a definitive answer, the
algorithm flag when the operand was not closed, the conversion flag when
rounding occurred. -/
def sat_fail_flags (man : elina_manager) (o : opt_oct) : elina_manager :=
  if man.num_incomplete = true ∨ 0 < o.intdim then flag_incomplete man
  else if o.closed.isNone = true then flag_algo man
  else if man.conv = true then flag_conv man
  else man

/-- The entailment check (opt_oct_predicate.c, opt_oct_sat_lincons): EQMOD
and DISEQ are skipped, the classified shape of the expression selects the
bound comparison; none models the undefined call on the bottom octagon,
which the caller guards. -/
def opt_oct_sat_lincons (man : elina_manager) (o : opt_oct)
    (cons : elina_lincons0) : Option (Bool × elina_manager) :=
  match o.sel with
  | none => none
  | some oo =>
    let c := cons.constyp
    if c = elina_constyp.EQMOD ∨ c = elina_constyp.DISEQ then some (false, man)
    else
      let r := opt_oct_uexpr_of_linexpr cons.linexpr0 o.intdim o.dim
      let u := r.1
      let t0 := r.2.1
      let t1 := r.2.2
      match u.type with
      | opt_uexpr_type.OPT_EMPTY => some (true, man)
      | opt_uexpr_type.OPT_ZERO =>
        if (c = elina_constyp.SUPEQ ∧ t0 ≤ Bnd.fin 0) ∨
           (c = elina_constyp.SUP ∧ t0 < Bnd.fin 0) ∨
           (c = elina_constyp.EQ ∧ t0 = Bnd.fin 0 ∧ t1 = Bnd.fin 0) then
          some (true, man)
        else some (false, sat_fail_flags man o)
      | opt_uexpr_type.OPT_UNARY =>
        let ui := if u.coef_i = 1 then 2*u.i else 2*u.i+1
        let s0 := Bnd.mul2 t0
        let s1 := Bnd.mul2 t1
        let p0 :=
          if oo.is_dense = false ∧ find oo.acl u.i = none then Bnd.add s0 Bnd.inf
          else Bnd.add s0 (oo.mat ui (ui ^^^ 1))
        let p1 :=
          if oo.is_dense = false ∧ find oo.acl u.i = none then Bnd.add s1 Bnd.inf
          else Bnd.add s1 (oo.mat (ui ^^^ 1) ui)
        if p0 ≤ Bnd.fin 0 ∧ (¬ c = elina_constyp.SUP ∨ p0 < Bnd.fin 0) ∧
           (¬ c = elina_constyp.EQ ∨ p1 ≤ Bnd.fin 0) then
          some (true, man)
        else some (false, sat_fail_flags man o)
      | opt_uexpr_type.OPT_BINARY =>
        let ui := if u.coef_i = 1 then 2*u.i else 2*u.i+1
        let uj := if u.coef_j = 1 then 2*u.j else 2*u.j+1
        let p0 :=
          if oo.is_dense = false ∧ is_connected oo.acl u.i u.j = false then Bnd.add t0 Bnd.inf
          else Bnd.add t0 (hget oo.mat uj (ui ^^^ 1))
        let p1 :=
          if oo.is_dense = false ∧ is_connected oo.acl u.i u.j = false then Bnd.add t1 Bnd.inf
          else Bnd.add t1 (hget oo.mat (uj ^^^ 1) ui)
        if p0 ≤ Bnd.fin 0 ∧ (¬ c = elina_constyp.SUP ∨ p0 < Bnd.fin 0) ∧
           (¬ c = elina_constyp.EQ ∨ p1 ≤ Bnd.fin 0) then
          some (true, man)
        else some (false, sat_fail_flags man o)
      | opt_uexpr_type.OPT_OTHER => some (false, flag_incomplete man)

/-- The public entailment entry (opt_oct_predicate.c,
opt_oct_sat_lincons_timing): optional closure caching, vacuous truth on the
empty octagon, otherwise the core check. -/
def opt_oct_sat_lincons_timing (man : elina_manager) (o : opt_oct)
    (cons : elina_lincons0) : Bool × opt_oct × elina_manager :=
  let man1 := opt_oct_init_from_manager man
  let o1 := if 0 ≤ man1.algorithm then opt_oct_cache_closure o else o
  match o1.closed, o1.m with
  | none, none => (true, o1, man1)
  | _, _ =>
    match opt_oct_sat_lincons man1 o1 cons with
    | some br => (br.1, o1, br.2)
    | none => (true, o1, man1)

/-- The literal index of the unary shape: 2i for a positive unit
coefficient, 2i+1 for a negative one. -/
def unary_ui (u : opt_uexpr) : Nat :=
  if u.coef_i = 1 then 2*u.i else 2*u.i+1

/-- The matrix bound entailing one side of a unary constraint: the entry at
(ui, ui xor 1) (upper side) or (ui xor 1, ui) (lower side), and the
implicit bound plus infinity when the variable belongs to no component of a
sparse matrix. -/
def unary_entailed_bound (oo : opt_oct_mat) (u : opt_uexpr) (upper : Bool) : Bnd :=
  if oo.is_dense = false ∧ find oo.acl u.i = none then Bnd.inf
  else if upper = true then oo.mat (unary_ui u) (unary_ui u ^^^ 1)
  else oo.mat (unary_ui u ^^^ 1) (unary_ui u)

/-- Triviality of a matrix as the spec states is_top: every logical
diagonal entry is zero and every logical off-diagonal entry is plus
infinity. -/
def IsTrivialMat (oo : opt_oct_mat) (dim : Nat) : Prop :=
  ∀ i, i < 2*dim → ∀ j, j < 2*dim → logical_get oo i j = implicit_bnd i j

/-- Well-formedness of a sparse partition: members below the dimension and
pairwise disjoint components (spec invariants of the component
partition). -/
def MatWf (oo : opt_oct_mat) (dim : Nat) : Prop :=
  oo.is_dense = false →
    ((∀ cl ∈ oo.acl, ∀ v ∈ cl, v < dim) ∧
     oo.acl.Pairwise fun c1 c2 => ∀ x, x ∈ c1 → x ∉ c2)

/-- A dense all-top matrix function: zero diagonal, plus infinity
elsewhere. -/
def topMatFun : Nat → Nat → Bnd :=
  fun i j => if i = j then Bnd.fin 0 else Bnd.inf

def topMat1 : opt_oct_mat := ⟨topMatFun, true, []⟩

/-- A dense one-variable matrix with x0 constrained to [2, oo): the entry
(0, 1) bounds -2 x0 by -4. -/
def mat1fun : Nat → Nat → Bnd :=
  fun i j =>
    if i = 0 ∧ j = 1 then Bnd.fin (-4)
    else if i = 1 ∧ j = 0 then Bnd.fin 4
    else if i = j then Bnd.fin 0 else Bnd.inf

def mat1 : opt_oct_mat := ⟨mat1fun, true, []⟩

def oct1 : opt_oct := ⟨1, 0, none, some mat1⟩

/-- A sparse two-variable matrix whose only component is the singleton of
variable 0, with x0 constrained to [1, 3]. -/
def mat2fun : Nat → Nat → Bnd :=
  fun i j =>
    if i = 0 ∧ j = 1 then Bnd.fin (-2)
    else if i = 1 ∧ j = 0 then Bnd.fin 6
    else if i = j then Bnd.fin 0 else Bnd.inf

def mat2 : opt_oct_mat := ⟨mat2fun, false, [[0]]⟩

def oct2 : opt_oct := ⟨2, 0, none, some mat2⟩

def oct5 : opt_oct := ⟨1, 0, some topMat1, none⟩

def oct7 : opt_oct := ⟨1, 0, none, some topMat1⟩

def octd1 : opt_oct := ⟨1, 0, none, none⟩

def octd2 : opt_oct := ⟨2, 0, none, none⟩

def oct9 : opt_oct := ⟨0, 0, none, none⟩

def man0 : elina_manager := ⟨0, true, true, false, false⟩

def manNeg : elina_manager := ⟨-1, true, true, false, false⟩

def coeff_one_itv : elina_interval := ⟨LoB.fin 1, Bnd.fin 1⟩

def cons1 : elina_lincons0 :=
  ⟨⟨⟨LoB.fin (-1), Bnd.fin (-1)⟩, [(0, coeff_one_itv)]⟩, elina_constyp.SUPEQ⟩

def cons4 : elina_lincons0 :=
  ⟨⟨⟨LoB.fin 0, Bnd.fin 0⟩, []⟩, elina_constyp.EQ⟩

def cons6 : elina_lincons0 :=
  ⟨⟨⟨LoB.fin 0, Bnd.fin 0⟩, []⟩, elina_constyp.DISEQ⟩

theorem sel_of_closed {o : opt_oct} {oo : opt_oct_mat} (h : o.closed = some oo) :
    o.sel = some oo := by
  simp [opt_oct.sel, h]

theorem cache_of_closed {o : opt_oct} {oo : opt_oct_mat} (h : o.closed = some oo) :
    opt_oct_cache_closure o = o := by
  simp [opt_oct_cache_closure, h]

theorem cache_of_bottom {o : opt_oct} (hc : o.closed = none) (hm : o.m = none) :
    opt_oct_cache_closure o = o := by
  simp [opt_oct_cache_closure, hc, hm]

theorem cache_closure_idem (o : opt_oct) :
    opt_oct_cache_closure (opt_oct_cache_closure o) = opt_oct_cache_closure o := by
  cases hc : o.closed with
  | some c => simp [opt_oct_cache_closure, hc]
  | none =>
    cases hm : o.m with
    | none => simp [opt_oct_cache_closure, hc, hm]
    | some mm =>
      cases hs : opt_hmat_strong_closure mm o.dim with
      | some c => simp [opt_oct_cache_closure, hc, hm, hs]
      | none => simp [opt_oct_cache_closure, hc, hm, hs]

theorem cache_closure_dim (o : opt_oct) :
    (opt_oct_cache_closure o).dim = o.dim := by
  cases hc : o.closed with
  | some c => simp [opt_oct_cache_closure, hc]
  | none =>
    cases hm : o.m with
    | none => simp [opt_oct_cache_closure, hc, hm]
    | some mm =>
      cases hs : opt_hmat_strong_closure mm o.dim with
      | some c => simp [opt_oct_cache_closure, hc, hm, hs]
      | none => simp [opt_oct_cache_closure, hc, hm, hs]

theorem bound_dim_read_oct (o1 : opt_oct) (d : Nat) (m : elina_manager) :
    (bound_dim_read o1 d m).2.1 = o1 := by
  cases hc : o1.closed <;> cases hm : o1.m <;> simp [bound_dim_read, hc, hm]

theorem bound_dim_read_fst_congr (o1 : opt_oct) (d : Nat) (m m' : elina_manager) :
    (bound_dim_read o1 d m).1 = (bound_dim_read o1 d m').1 := by
  cases hc : o1.closed <;> cases hm : o1.m <;> simp [bound_dim_read, hc, hm]

theorem bound_dim_read_algorithm (o1 : opt_oct) (d : Nat) (m : elina_manager) :
    (bound_dim_read o1 d m).2.2.algorithm = m.algorithm := by
  cases hc : o1.closed <;> cases hm : o1.m <;>
    simp only [bound_dim_read, hc, hm] <;>
    (try rfl) <;>
    · split
      · rfl
      · split <;> rfl

theorem list_get?_replicate {α : Type} (a : α) :
    ∀ (n v : Nat), v < n → (List.replicate n a).get? v = some a := by
  intro n
  induction n with
  | zero => intro v hv; omega
  | succ k ih =>
    intro v hv
    cases v with
    | zero => simp [List.replicate]
    | succ w => simpa [List.replicate] using ih w (by omega)

theorem list_get?_set {α : Type} (a : α) :
    ∀ (l : List α) (i n : Nat),
      (l.set i a).get? n = if i = n ∧ n < l.length then some a else l.get? n := by
  intro l
  induction l with
  | nil => intro i n; simp
  | cons x t ih =>
    intro i n
    cases i with
    | zero =>
      cases n with
      | zero => simp
      | succ w => simp
    | succ k =>
      cases n with
      | zero => simp
      | succ w =>
        simp only [List.set, List.get?, ih k w, List.length_cons]
        by_cases h : k = w ∧ w < t.length
        · rw [if_pos h, if_pos (by omega)]
        · rw [if_neg h, if_neg (by omega)]

theorem find_none_iff (acl : List (List Nat)) (v : Nat) :
    find acl v = none ↔ ∀ cl ∈ acl, v ∉ cl := by
  simp [find, List.find?_eq_none, List.contains]

theorem find_mem {acl : List (List Nat)} {cl : List Nat} {v : Nat}
    (h : find acl v = some cl) : cl ∈ acl ∧ v ∈ cl := by
  refine ⟨List.mem_of_find?_eq_some h, ?_⟩
  have h2 := List.find?_some h
  simpa [List.contains] using h2

theorem find_eq_of_mem {acl : List (List Nat)} {cl : List Nat} {v : Nat}
    (hdis : acl.Pairwise fun c1 c2 => ∀ x, x ∈ c1 → x ∉ c2)
    (hcl : cl ∈ acl) (hv : v ∈ cl) : find acl v = some cl := by
  induction acl with
  | nil => cases hcl
  | cons c rest ih =>
    rcases List.pairwise_cons.mp hdis with ⟨hd, ht⟩
    rcases List.mem_cons.mp hcl with hcc | hcc
    · subst hcc
      simp [find, List.find?, hv]
    · have hvc : v ∉ c := by
        intro hvc
        exact hd cl hcc v hvc hv
      have := ih ht hcc
      simpa [find, List.find?, hvc] using this

theorem to_box_fold_len_one (oo : opt_oct_mat) :
    ∀ (cl : List Nat) (init : List elina_interval),
      (cl.foldl (fun acc2 i1 =>
          acc2.set i1 (opt_interval_of_bounds (oo.mat (2*i1) (2*i1+1)) (oo.mat (2*i1+1) (2*i1))))
        init).length = init.length := by
  intro cl
  induction cl with
  | nil => intro init; rfl
  | cons a t ih =>
    intro init
    simp only [List.foldl_cons, ih, List.length_set]

theorem to_box_fold_get_one (oo : opt_oct_mat) :
    ∀ (cl : List Nat) (init : List elina_interval) (v : Nat),
      ((cl.foldl (fun acc2 i1 =>
          acc2.set i1 (opt_interval_of_bounds (oo.mat (2*i1) (2*i1+1)) (oo.mat (2*i1+1) (2*i1))))
        init).get? v)
        = if v ∈ cl ∧ v < init.length then
            some (opt_interval_of_bounds (oo.mat (2*v) (2*v+1)) (oo.mat (2*v+1) (2*v)))
          else init.get? v := by
  intro cl
  induction cl with
  | nil => intro init v; simp
  | cons a t ih =>
    intro init v
    simp only [List.foldl_cons]
    rw [ih, List.length_set, list_get?_set]
    by_cases hvt : v ∈ t
    · by_cases hlen : v < init.length
      · rw [if_pos ⟨hvt, hlen⟩, if_pos ⟨List.mem_cons_of_mem a hvt, hlen⟩]
      · rw [if_neg (fun hh => hlen hh.2), if_neg (fun hh => hlen hh.2),
            if_neg (fun hh => hlen hh.2)]
    · rw [if_neg (fun hh => hvt hh.1)]
      by_cases hav : a = v
      · subst hav
        by_cases hlen : a < init.length
        · rw [if_pos ⟨rfl, hlen⟩, if_pos ⟨List.mem_cons_self a t, hlen⟩]
        · rw [if_neg (fun hh => hlen hh.2), if_neg (fun hh => hlen hh.2)]
      · rw [if_neg (fun hh => hav hh.1)]
        have : ¬ (v ∈ a :: t ∧ v < init.length) := by
          intro hh
          rcases List.mem_cons.mp hh.1 with h1 | h1
          · exact hav h1.symm
          · exact hvt h1
        rw [if_neg this]

theorem to_box_fold_get (oo : opt_oct_mat) :
    ∀ (cls : List (List Nat)) (init : List elina_interval) (v : Nat),
      ((cls.foldl (fun acc cl => cl.foldl (fun acc2 i1 =>
          acc2.set i1 (opt_interval_of_bounds (oo.mat (2*i1) (2*i1+1)) (oo.mat (2*i1+1) (2*i1))))
        acc) init).get? v)
        = if (∃ cl, cl ∈ cls ∧ v ∈ cl) ∧ v < init.length then
            some (opt_interval_of_bounds (oo.mat (2*v) (2*v+1)) (oo.mat (2*v+1) (2*v)))
          else init.get? v := by
  intro cls
  induction cls with
  | nil => intro init v; simp
  | cons c rest ih =>
    intro init v
    simp only [List.foldl_cons]
    rw [ih, to_box_fold_len_one, to_box_fold_get_one]
    by_cases hvr : ∃ cl, cl ∈ rest ∧ v ∈ cl
    · by_cases hlen : v < init.length
      · rw [if_pos ⟨hvr, hlen⟩]
        obtain ⟨cl, hcl, hvcl⟩ := hvr
        rw [if_pos ⟨⟨cl, List.mem_cons_of_mem c hcl, hvcl⟩, hlen⟩]
      · rw [if_neg (fun hh => hlen hh.2), if_neg (fun hh => hlen hh.2),
            if_neg (fun hh => hlen hh.2)]
    · rw [if_neg (fun hh => hvr hh.1)]
      by_cases hvc : v ∈ c
      · by_cases hlen : v < init.length
        · rw [if_pos ⟨hvc, hlen⟩, if_pos ⟨⟨c, List.mem_cons_self c rest, hvc⟩, hlen⟩]
        · rw [if_neg (fun hh => hlen hh.2), if_neg (fun hh => hlen hh.2)]
      · rw [if_neg (fun hh => hvc hh.1)]
        have : ¬ ((∃ cl, cl ∈ c :: rest ∧ v ∈ cl) ∧ v < init.length) := by
          intro hh
          obtain ⟨⟨cl, hcl, hvcl⟩, _⟩ := hh
          rcases List.mem_cons.mp hcl with h1 | h1
          · subst h1; exact hvc hvcl
          · exact hvr ⟨cl, h1, hvcl⟩
        rw [if_neg this]

/-- C3: for two octagon values whose dim or intdim differ, the comparison
predicates opt_oct_is_leq and opt_oct_is_eq return false, the safe default,
whatever the matrices hold. -/
theorem dimension_mismatch_comparisons (man : elina_manager) (o1 o2 : opt_oct)
    (h : o1.dim ≠ o2.dim ∨ o1.intdim ≠ o2.intdim) :
    (opt_oct_is_leq man o1 o2).1 = false ∧ (opt_oct_is_eq man o1 o2).1 = false := by
  constructor
  · simp only [opt_oct_is_leq]
    rw [if_pos h]
  · simp only [opt_oct_is_eq]
    rw [if_pos h]

theorem dimension_mismatch_comparisons_witness :
    (opt_oct_is_leq man0 octd1 octd2).1 = false ∧
    (opt_oct_is_eq man0 octd1 octd2).1 = false :=
  dimension_mismatch_comparisons man0 octd1 octd2 (Or.inl (by decide))

/-- C6: the core entailment check settles only EQ, SUPEQ and SUP; for every
non-bottom octagon and every constraint of type EQMOD or DISEQ it returns
false with the manager untouched, independently of the matrix. -/
theorem sat_lincons_eqmod_diseq_false (man : elina_manager) (o : opt_oct)
    (oo : opt_oct_mat) (cons : elina_lincons0) (hsel : o.sel = some oo)
    (hc : cons.constyp = elina_constyp.EQMOD ∨ cons.constyp = elina_constyp.DISEQ) :
    opt_oct_sat_lincons man o cons = some (false, man) := by
  simp only [opt_oct_sat_lincons, hsel]
  rw [if_pos hc]

theorem sat_lincons_eqmod_diseq_false_witness :
    opt_oct_sat_lincons man0 oct1 cons6 = some (false, man0) :=
  sat_lincons_eqmod_diseq_false man0 oct1 mat1 cons6 rfl (Or.inr rfl)

/-- C9: dimension-indexed queries reject an out-of-range index:
opt_oct_bound_dimension returns none, opt_oct_sat_interval returns false
and opt_oct_is_dimension_unconstrained returns false. -/
theorem out_of_range_dimension_queries (man : elina_manager) (o : opt_oct) (d : Nat)
    (itv : elina_interval) (hd : o.dim ≤ d) :
    (opt_oct_bound_dimension man o d).1 = none ∧
    (opt_oct_sat_interval man o d itv).1 = false ∧
    opt_oct_is_dimension_unconstrained man o d = false := by
  refine ⟨?_, ?_, ?_⟩
  · simp only [opt_oct_bound_dimension]
    rw [if_pos hd]
  · simp only [opt_oct_sat_interval]
    rw [if_pos hd]
  · simp only [opt_oct_is_dimension_unconstrained]
    rw [if_pos hd]

theorem out_of_range_dimension_queries_witness :
    (opt_oct_bound_dimension man0 oct9 0).1 = none ∧
    (opt_oct_sat_interval man0 oct9 0 elina_interval_top).1 = false ∧
    opt_oct_is_dimension_unconstrained man0 oct9 0 = false :=
  out_of_range_dimension_queries man0 oct9 0 elina_interval_top (by decide)

/-- C10: for the bottom octagon (both matrices null) every satisfaction
query holds vacuously and the projection is empty: opt_oct_sat_interval is
true for every in-range dimension and interval, the sat_lincons entry is
true for every constraint, and opt_oct_to_box yields the bottom interval at
every dimension. -/
theorem bottom_octagon_queries (man : elina_manager) (o : opt_oct)
    (hm : o.m = none) (hc : o.closed = none) :
    (∀ d, d < o.dim → ∀ itv, (opt_oct_sat_interval man o d itv).1 = true) ∧
    (∀ cons, (opt_oct_sat_lincons_timing man o cons).1 = true) ∧
    (∀ v, v < o.dim → ((opt_oct_to_box man o).1).get? v = some elina_interval_bottom) := by
  have hcc : opt_oct_cache_closure o = o := cache_of_bottom hc hm
  have ho1 : (if 0 ≤ (opt_oct_init_from_manager man).algorithm
      then opt_oct_cache_closure o else o) = o := by
    split
    · exact hcc
    · rfl
  have hsel : o.sel = none := by simp [opt_oct.sel, hc, hm]
  refine ⟨?_, ?_, ?_⟩
  · intro d hd itv
    simp only [opt_oct_sat_interval]
    rw [if_neg (by omega)]
    simp only [ho1, hsel]
  · intro cons
    simp only [opt_oct_sat_lincons_timing, ho1, hc, hm]
  · intro v hv
    simp only [opt_oct_to_box, ho1, hsel]
    exact list_get?_replicate _ _ _ hv

theorem bottom_octagon_queries_witness :
    (opt_oct_sat_interval man0 octd1 0 elina_interval_top).1 = true ∧
    (opt_oct_sat_lincons_timing man0 octd1 cons6).1 = true ∧
    ((opt_oct_to_box man0 octd1).1).get? 0 = some elina_interval_bottom := by
  obtain ⟨h1, h2, h3⟩ := bottom_octagon_queries man0 octd1 rfl rfl
  exact ⟨h1 0 (by decide) elina_interval_top, h2 cons6, h3 0 (by decide)⟩

theorem to_box_flag_cascade_flag_exact (man2 : elina_manager) (o1 : opt_oct)
    (hfe : man2.flag_exact = false) :
    (if o1.closed.isNone = true then flag_algo man2
     else if man2.num_incomplete = true ∨ 0 < o1.intdim then flag_incomplete man2
     else if man2.conv = true then flag_conv man2 else man2).flag_exact = false := by
  split
  · simp [flag_algo, flag_incomplete]
  · split
    · simp [flag_incomplete]
    · split
      · simp [flag_conv, flag_incomplete]
      · exact hfe

/-- C7 (amended): after opt_oct_to_box the manager's flag_exact is false
exactly when the resulting octagon is non-empty; the unconditional
assignment in the non-empty branch discards exactness even with a cached
closure, no integer dimensions and no conversion loss. -/
theorem opt_oct_to_box_flag_exact_amended (man : elina_manager) (o : opt_oct) :
    ((opt_oct_to_box man o).2.2).flag_exact = (((opt_oct_to_box man o).2.1).sel).isNone := by
  simp only [opt_oct_to_box]
  generalize (if 0 ≤ (opt_oct_init_from_manager man).algorithm
      then opt_oct_cache_closure o else o) = X
  rcases hs : X.sel with _ | oo
  · simp [hs, opt_oct_init_from_manager]
  · simp only [hs]
    have hc := to_box_flag_cascade_flag_exact
      { opt_oct_init_from_manager man with flag_exact := false } X rfl
    simp [hs, hc]

/-- C7 counterexample: a non-empty octagon with a cached closed matrix, no
integer dimensions, complete bounds and no conversion loss still comes out
of opt_oct_to_box with flag_exact false. -/
theorem opt_oct_to_box_flag_exact_cex :
    oct7.closed.isSome = true ∧ oct7.intdim = 0 ∧ manNeg.conv = false ∧
    manNeg.num_incomplete = false ∧
    ((opt_oct_to_box manNeg oct7).2.2).flag_exact = false := by decide

theorem opt_oct_bound_dimension_read (man : elina_manager) (o : opt_oct) (d : Nat)
    (hd : d < o.dim) :
    opt_oct_bound_dimension man o d =
      bound_dim_read (if 0 ≤ (opt_oct_init_from_manager man).algorithm
        then opt_oct_cache_closure o else o) d (opt_oct_init_from_manager man) := by
  simp only [opt_oct_bound_dimension]
  rw [if_neg (by omega)]

/-- C8: two consecutive calls of opt_oct_bound_dimension on the same value
and dimension return equal intervals; the first call may cache the closure,
the second reads the same cached state. -/
theorem bound_dimension_consecutive_reads (man : elina_manager) (o : opt_oct) (d : Nat)
    (hd : d < o.dim) :
    (opt_oct_bound_dimension man o d).1 =
      (opt_oct_bound_dimension (opt_oct_bound_dimension man o d).2.2
        (opt_oct_bound_dimension man o d).2.1 d).1 := by
  have e1 := opt_oct_bound_dimension_read man o d hd
  set man1 := opt_oct_init_from_manager man with hman1
  set o1 := if 0 ≤ man1.algorithm then opt_oct_cache_closure o else o with ho1
  have ho1dim : o1.dim = o.dim := by
    rw [ho1]
    split
    · exact cache_closure_dim o
    · rfl
  rw [e1, bound_dim_read_oct]
  rw [opt_oct_bound_dimension_read _ o1 d (by omega)]
  have halgM : (opt_oct_init_from_manager
      ((bound_dim_read o1 d man1).2.2)).algorithm = man1.algorithm := by
    show ((bound_dim_read o1 d man1).2.2).algorithm = man1.algorithm
    exact bound_dim_read_algorithm _ _ _
  rw [halgM]
  have ho1fix : (if 0 ≤ man1.algorithm then opt_oct_cache_closure o1 else o1) = o1 := by
    by_cases h0 : (0:Int) ≤ man1.algorithm
    · rw [if_pos h0, ho1, if_pos h0, cache_closure_idem]
    · rw [if_neg h0]
  rw [ho1fix]
  exact bound_dim_read_fst_congr _ _ _ _

theorem bound_dimension_consecutive_reads_witness :
    (opt_oct_bound_dimension man0 oct1 0).1 =
      (opt_oct_bound_dimension (opt_oct_bound_dimension man0 oct1 0).2.2
        (opt_oct_bound_dimension man0 oct1 0).2.1 0).1 :=
  bound_dimension_consecutive_reads man0 oct1 0 (by decide)

theorem opt_oct_to_box_snd (man : elina_manager) (o : opt_oct) :
    (opt_oct_to_box man o).2.1 =
      (if 0 ≤ (opt_oct_init_from_manager man).algorithm
        then opt_oct_cache_closure o else o) := by
  simp only [opt_oct_to_box]
  cases hs : (if 0 ≤ (opt_oct_init_from_manager man).algorithm
      then opt_oct_cache_closure o else o).sel <;> simp [hs]

/-- C2: for every call of opt_oct_to_box whose resulting octagon is
non-empty, the returned interval of each variable v is read from that
octagon's cached closed matrix if present, else from m — the bounds
m[2v, 2v+1] and m[2v+1, 2v] halved and the lower one negated — and a
sparse variable outside every component gets the top interval.  The
manager configuration is arbitrary: when auto-closing runs, the read
matrix is the freshly cached closure. -/
theorem opt_oct_to_box_projection (man : elina_manager) (o : opt_oct) (oo : opt_oct_mat)
    (hsel : ((opt_oct_to_box man o).2.1).sel = some oo) :
    ∀ v, v < o.dim →
      ((opt_oct_to_box man o).1).get? v =
        some (if oo.is_dense = false ∧ find oo.acl v = none then elina_interval_top
              else opt_interval_of_bounds (oo.mat (2*v) (2*v+1)) (oo.mat (2*v+1) (2*v))) := by
  intro v hv
  rw [opt_oct_to_box_snd] at hsel
  have hdim : (if 0 ≤ (opt_oct_init_from_manager man).algorithm
      then opt_oct_cache_closure o else o).dim = o.dim := by
    split
    · exact cache_closure_dim o
    · rfl
  simp only [opt_oct_to_box, hsel]
  rw [hdim]
  cases hdn : oo.is_dense with
  | true =>
    rw [if_neg (by simp), if_neg (by simp)]
    simp only [List.get?_eq_getElem?, List.getElem?_map, List.getElem?_range hv]
    rfl
  | false =>
    rw [if_pos rfl, to_box_fold_get, List.length_replicate]
    cases hf : find oo.acl v with
    | none =>
      have hnone : ¬ ∃ cl, cl ∈ oo.acl ∧ v ∈ cl := by
        rintro ⟨cl, hcl, hvcl⟩
        exact (find_none_iff oo.acl v).mp hf cl hcl hvcl
      rw [if_neg (fun hh => hnone hh.1), list_get?_replicate _ _ _ hv,
          if_pos ⟨rfl, rfl⟩]
    | some c =>
      obtain ⟨hmem, hvc⟩ := find_mem hf
      rw [if_pos ⟨⟨c, hmem, hvc⟩, hv⟩, if_neg (by simp [hf])]

theorem opt_oct_to_box_projection_witness :
    ((opt_oct_to_box man0 oct2).1).get? 1 = some elina_interval_top ∧
    ((opt_oct_to_box man0 oct2).1).get? 0 =
      some (opt_interval_of_bounds (mat2.mat 0 1) (mat2.mat 1 0)) := by
  have hsel : ((opt_oct_to_box man0 oct2).2.1).sel = some mat2 := by
    rw [opt_oct_to_box_snd]
    rfl
  have h1 := opt_oct_to_box_projection man0 oct2 mat2 hsel 1 (by decide)
  have h0 := opt_oct_to_box_projection man0 oct2 mat2 hsel 0 (by decide)
  constructor
  · rw [h1, if_pos ⟨rfl, rfl⟩]
  · rw [h0, if_neg (fun hh => Option.noConfusion hh.2)]

theorem ite_some_iff (P : Prop) [Decidable P] (mt mf : elina_manager) :
    ∃ man2 res, (if P then some ((true : Bool), mt) else some (false, mf)) = some (res, man2) ∧
      (res = true ↔ P) := by
  by_cases h : P
  · exact ⟨mt, true, by rw [if_pos h], by simp [h]⟩
  · exact ⟨mf, false, by rw [if_neg h], by simp [h]⟩

theorem guard_iff (c : elina_constyp) (P0 P1 P2 : Prop) :
    (P0 ∧ (¬ c = elina_constyp.SUP ∨ P1) ∧ (¬ c = elina_constyp.EQ ∨ P2)) ↔
    (P0 ∧ (c = elina_constyp.SUP → P1) ∧ (c = elina_constyp.EQ → P2)) := by
  constructor <;> rintro ⟨h0, h1, h2⟩ <;> exact ⟨h0, by tauto, by tauto⟩

/-- C4: for a non-bottom octagon and a constraint classified as ZERO shape
with constant interval [-a, b], the core entailment check answers true
exactly for SUPEQ with a nonpositive, SUP with a negative, or EQ with both
a and b zero; every other case answers false. -/
theorem sat_lincons_zero_spec (man : elina_manager) (o : opt_oct) (oo : opt_oct_mat)
    (cons : elina_lincons0) (u : opt_uexpr) (a b : Bnd)
    (hsel : o.sel = some oo)
    (hu : opt_oct_uexpr_of_linexpr cons.linexpr0 o.intdim o.dim = (u, a, b))
    (hty : u.type = opt_uexpr_type.OPT_ZERO) :
    ∃ man2 res, opt_oct_sat_lincons man o cons = some (res, man2) ∧
      (res = true ↔
        ((cons.constyp = elina_constyp.SUPEQ ∧ a ≤ Bnd.fin 0) ∨
         (cons.constyp = elina_constyp.SUP ∧ a < Bnd.fin 0) ∨
         (cons.constyp = elina_constyp.EQ ∧ a = Bnd.fin 0 ∧ b = Bnd.fin 0))) := by
  obtain ⟨ty, ii, jj, ci, cj⟩ := u
  change ty = opt_uexpr_type.OPT_ZERO at hty
  subst hty
  by_cases hg : cons.constyp = elina_constyp.EQMOD ∨ cons.constyp = elina_constyp.DISEQ
  · refine ⟨man, false, ?_, ?_⟩
    · simp only [opt_oct_sat_lincons, hsel]
      rw [if_pos hg]
    · constructor
      · intro h
        cases h
      · rintro (⟨h', _⟩ | ⟨h', _⟩ | ⟨h', _⟩) <;>
          rcases hg with h | h <;> rw [h] at h' <;> simp at h'
  · simp only [opt_oct_sat_lincons, hsel, hu]
    rw [if_neg hg]
    exact ite_some_iff _ _ _

theorem sat_lincons_zero_spec_witness :
    ∃ man2, opt_oct_sat_lincons man0 oct1 cons4 = some (true, man2) := by
  obtain ⟨man2, res, heq, hiff⟩ :=
    sat_lincons_zero_spec man0 oct1 mat1 cons4 ⟨opt_uexpr_type.OPT_ZERO, 0, 0, 1, 1⟩
      (Bnd.fin 0) (Bnd.fin 0) rfl (by decide) rfl
  have hres : res = true := hiff.mpr (Or.inr (Or.inr (by decide)))
  subst hres
  exact ⟨man2, heq⟩

/-- C1: for a strongly closed non-empty octagon and a constraint of UNARY
shape c_i x_i + [-a, b] with relation SUPEQ, SUP or EQ, the core entailment
check answers true exactly when 2a plus the bound at (ui, ui xor 1) is
nonpositive (negative for SUP), and for EQ additionally 2b plus the bound
at (ui xor 1, ui) is nonpositive; in sparse mode a variable outside every
component contributes the implicit bound plus infinity, failing the
check. -/
theorem sat_lincons_unary_spec (man : elina_manager) (o : opt_oct) (oo : opt_oct_mat)
    (cons : elina_lincons0) (u : opt_uexpr) (a b : Bnd)
    (hcl : o.closed = some oo)
    (hc : cons.constyp = elina_constyp.SUPEQ ∨ cons.constyp = elina_constyp.SUP ∨
      cons.constyp = elina_constyp.EQ)
    (hu : opt_oct_uexpr_of_linexpr cons.linexpr0 o.intdim o.dim = (u, a, b))
    (hty : u.type = opt_uexpr_type.OPT_UNARY) :
    ∃ man2 res, opt_oct_sat_lincons man o cons = some (res, man2) ∧
      (res = true ↔
        (Bnd.add (Bnd.mul2 a) (unary_entailed_bound oo u true) ≤ Bnd.fin 0 ∧
         (cons.constyp = elina_constyp.SUP →
           Bnd.add (Bnd.mul2 a) (unary_entailed_bound oo u true) < Bnd.fin 0) ∧
         (cons.constyp = elina_constyp.EQ →
           Bnd.add (Bnd.mul2 b) (unary_entailed_bound oo u false) ≤ Bnd.fin 0))) := by
  obtain ⟨ty, ii, jj, ci, cj⟩ := u
  change ty = opt_uexpr_type.OPT_UNARY at hty
  subst hty
  have hsel : o.sel = some oo := sel_of_closed hcl
  have hg : ¬ (cons.constyp = elina_constyp.EQMOD ∨ cons.constyp = elina_constyp.DISEQ) := by
    rcases hc with h | h | h <;> simp [h]
  simp only [opt_oct_sat_lincons, hsel, hu]
  rw [if_neg hg]
  by_cases hsp : oo.is_dense = false ∧ find oo.acl ii = none
  · rw [if_pos hsp, if_pos hsp]
    have hb1 : unary_entailed_bound oo ⟨opt_uexpr_type.OPT_UNARY, ii, jj, ci, cj⟩ true
        = Bnd.inf := by
      simp [unary_entailed_bound, hsp.1, hsp.2]
    have hb2 : unary_entailed_bound oo ⟨opt_uexpr_type.OPT_UNARY, ii, jj, ci, cj⟩ false
        = Bnd.inf := by
      simp [unary_entailed_bound, hsp.1, hsp.2]
    rw [hb1, hb2]
    simp only [guard_iff]
    exact ite_some_iff _ _ _
  · rw [if_neg hsp, if_neg hsp]
    have hb1 : unary_entailed_bound oo ⟨opt_uexpr_type.OPT_UNARY, ii, jj, ci, cj⟩ true
        = oo.mat (if ci = 1 then 2*ii else 2*ii+1) ((if ci = 1 then 2*ii else 2*ii+1) ^^^ 1) := by
      unfold unary_entailed_bound unary_ui
      rw [if_neg hsp, if_pos rfl]
    have hb2 : unary_entailed_bound oo ⟨opt_uexpr_type.OPT_UNARY, ii, jj, ci, cj⟩ false
        = oo.mat ((if ci = 1 then 2*ii else 2*ii+1) ^^^ 1) (if ci = 1 then 2*ii else 2*ii+1) := by
      unfold unary_entailed_bound unary_ui
      rw [if_neg hsp]
      simp
    rw [hb1, hb2]
    simp only [guard_iff]
    exact ite_some_iff _ _ _

theorem sat_lincons_unary_spec_witness :
    ∃ man2, opt_oct_sat_lincons man0 oct1 cons1 = some (true, man2) := by
  obtain ⟨man2, res, heq, hiff⟩ :=
    sat_lincons_unary_spec man0 oct1 mat1 cons1 ⟨opt_uexpr_type.OPT_UNARY, 0, 0, 1, 1⟩
      (Bnd.fin 1) (Bnd.fin (-1)) rfl (Or.inl rfl) (by decide) rfl
  have hres : res = true := by
    apply hiff.mpr
    refine ⟨?_, ?_, ?_⟩
    · have hb : unary_entailed_bound mat1 ⟨opt_uexpr_type.OPT_UNARY, 0, 0, 1, 1⟩ true
          = Bnd.fin (-4) := by decide
      rw [hb]
      show Bnd.leb (Bnd.add (Bnd.mul2 (Bnd.fin 1)) (Bnd.fin (-4))) (Bnd.fin 0) = true
      simp only [Bnd.mul2, Bnd.add, Bnd.leb]
      apply decide_eq_true
      norm_num
    · intro h
      exact absurd h (by decide)
    · intro h
      exact absurd h (by decide)
  subst hres
  exact ⟨man2, heq⟩

theorem check_trivial_relation_iff (m : Nat → Nat → Bnd) (u v : Nat) :
    check_trivial_relation m u v = true ↔
      ∀ p, p < 2 → ∀ q, q < 2 →
        hget m (2*u+p) (2*v+q) = implicit_bnd (2*u+p) (2*v+q) := by
  constructor
  · intro h p hp q hq
    simp only [check_trivial_relation] at h
    have hp2 : p = 0 ∨ p = 1 := by omega
    have hq2 : q = 0 ∨ q = 1 := by omega
    by_cases huv : u = v
    · subst huv
      rw [if_pos rfl] at h
      simp only [Bool.and_eq_true, beq_iff_eq] at h
      obtain ⟨⟨⟨h1, h2⟩, h3⟩, h4⟩ := h
      rcases hp2 with hp0 | hp0 <;> rcases hq2 with hq0 | hq0 <;> subst hp0 <;> subst hq0
      · rw [show 2*u+0 = 2*u from rfl,
            show implicit_bnd (2*u) (2*u) = Bnd.fin 0 from by
              unfold implicit_bnd; rw [if_pos rfl]]
        exact h1
      · rw [show 2*u+0 = 2*u from rfl,
            show implicit_bnd (2*u) (2*u+1) = Bnd.inf from by
              unfold implicit_bnd; rw [if_neg (by omega)]]
        exact h3
      · rw [show 2*u+0 = 2*u from rfl,
            show implicit_bnd (2*u+1) (2*u) = Bnd.inf from by
              unfold implicit_bnd; rw [if_neg (by omega)]]
        exact h4
      · rw [show implicit_bnd (2*u+1) (2*u+1) = Bnd.fin 0 from by
              unfold implicit_bnd; rw [if_pos rfl]]
        exact h2
    · rw [if_neg huv] at h
      simp only [Bool.and_eq_true, beq_iff_eq] at h
      obtain ⟨⟨⟨h1, h2⟩, h3⟩, h4⟩ := h
      rcases hp2 with hp0 | hp0 <;> rcases hq2 with hq0 | hq0 <;> subst hp0 <;> subst hq0
      · rw [show 2*u+0 = 2*u from rfl, show 2*v+0 = 2*v from rfl,
            show implicit_bnd (2*u) (2*v) = Bnd.inf from by
              unfold implicit_bnd; rw [if_neg (by omega)]]
        exact h1
      · rw [show 2*u+0 = 2*u from rfl,
            show implicit_bnd (2*u) (2*v+1) = Bnd.inf from by
              unfold implicit_bnd; rw [if_neg (by omega)]]
        exact h3
      · rw [show 2*v+0 = 2*v from rfl,
            show implicit_bnd (2*u+1) (2*v) = Bnd.inf from by
              unfold implicit_bnd; rw [if_neg (by omega)]]
        exact h4
      · rw [show implicit_bnd (2*u+1) (2*v+1) = Bnd.inf from by
              unfold implicit_bnd; rw [if_neg (by omega)]]
        exact h2
  · intro h
    have h00 := h 0 (by omega) 0 (by omega)
    have h01 := h 0 (by omega) 1 (by omega)
    have h10 := h 1 (by omega) 0 (by omega)
    have h11 := h 1 (by omega) 1 (by omega)
    rw [show 2*u+0 = 2*u from rfl] at h00 h01
    rw [show 2*v+0 = 2*v from rfl] at h00 h10
    simp only [check_trivial_relation]
    by_cases huv : u = v
    · subst huv
      rw [if_pos rfl]
      simp only [Bool.and_eq_true, beq_iff_eq]
      refine ⟨⟨⟨?_, ?_⟩, ?_⟩, ?_⟩
      · rw [h00]
        unfold implicit_bnd
        rw [if_pos rfl]
      · rw [h11]
        unfold implicit_bnd
        rw [if_pos rfl]
      · rw [h01]
        unfold implicit_bnd
        rw [if_neg (by omega)]
      · rw [h10]
        unfold implicit_bnd
        rw [if_neg (by omega)]
    · rw [if_neg huv]
      simp only [Bool.and_eq_true, beq_iff_eq]
      refine ⟨⟨⟨?_, ?_⟩, ?_⟩, ?_⟩
      · rw [h00]
        unfold implicit_bnd
        rw [if_neg (by omega)]
      · rw [h11]
        unfold implicit_bnd
        rw [if_neg (by omega)]
      · rw [h01]
        unfold implicit_bnd
        rw [if_neg (by omega)]
      · rw [h10]
        unfold implicit_bnd
        rw [if_neg (by omega)]

theorem is_top_half_dense_iff (oo : opt_oct_mat) (dim : Nat) (hd : oo.is_dense = true) :
    is_top_half oo dim = true ↔ IsTrivialMat oo dim := by
  simp only [is_top_half, hd, if_pos, List.all_eq_true, List.mem_range]
  constructor
  · intro h i hi j hj
    have hu : i / 2 < dim := by omega
    have hv : j / 2 < dim := by omega
    have hct := (check_trivial_relation_iff oo.mat (i / 2) (j / 2)).mp (h _ hu _ hv)
      (i % 2) (by omega) (j % 2) (by omega)
    rw [show 2 * (i / 2) + i % 2 = i from by omega,
        show 2 * (j / 2) + j % 2 = j from by omega] at hct
    simpa [logical_get, hd] using hct
  · intro h u hu v hv
    refine (check_trivial_relation_iff oo.mat u v).mpr ?_
    intro p hp q hq
    have h1 := h (2*u+p) (by omega) (2*v+q) (by omega)
    simpa [logical_get, hd] using h1

theorem is_top_half_sparse_iff (oo : opt_oct_mat) (dim : Nat) (hd : oo.is_dense = false)
    (hbnd : ∀ cl ∈ oo.acl, ∀ v ∈ cl, v < dim)
    (hdis : oo.acl.Pairwise fun c1 c2 => ∀ x, x ∈ c1 → x ∉ c2) :
    is_top_half oo dim = true ↔ IsTrivialMat oo dim := by
  simp only [is_top_half, hd]
  rw [if_neg (fun hh => Bool.noConfusion hh)]
  simp only [List.all_eq_true]
  constructor
  · intro h i hi j hj
    simp only [logical_get, hd]
    cases hfi : find oo.acl (i / 2) with
    | none => simp
    | some c1 =>
      cases hfj : find oo.acl (j / 2) with
      | none => simp
      | some c2 =>
        by_cases hcc : c1 = c2
        · subst hcc
          obtain ⟨hmem, hiv⟩ := find_mem hfi
          obtain ⟨_, hjv⟩ := find_mem hfj
          have hct := (check_trivial_relation_iff oo.mat (i / 2) (j / 2)).mp
            (h c1 hmem _ hiv _ hjv) (i % 2) (by omega) (j % 2) (by omega)
          rw [show 2 * (i / 2) + i % 2 = i from by omega,
              show 2 * (j / 2) + j % 2 = j from by omega] at hct
          simp [hct]
        · simp [hcc]
  · intro h cl hcl u hu v hv
    refine (check_trivial_relation_iff oo.mat u v).mpr ?_
    intro p hp q hq
    have hu' : u < dim := hbnd cl hcl u hu
    have hv' : v < dim := hbnd cl hcl v hv
    have h1 := h (2*u+p) (by omega) (2*v+q) (by omega)
    have hfu : find oo.acl ((2*u+p) / 2) = some cl := by
      rw [show (2*u+p) / 2 = u from by omega]
      exact find_eq_of_mem hdis hcl hu
    have hfv : find oo.acl ((2*v+q) / 2) = some cl := by
      rw [show (2*v+q) / 2 = v from by omega]
      exact find_eq_of_mem hdis hcl hv
    simpa [logical_get, hd, hfu, hfv] using h1

/-- C5: opt_oct_is_top answers true exactly when the matrix it reads (m if
present, else closed) is trivial — every logical diagonal entry zero and
every logical off-diagonal entry plus infinity — and false for the bottom
value whose matrices are both null. -/
theorem opt_oct_is_top_trivial_spec (man : elina_manager) (o : opt_oct)
    (hwf : ∀ oo, o.selTop = some oo → MatWf oo o.dim) :
    opt_oct_is_top man o = true ↔
      ∃ oo, o.selTop = some oo ∧ IsTrivialMat oo o.dim := by
  cases hst : o.selTop with
  | none => simp [opt_oct_is_top, hst]
  | some oo =>
    simp only [opt_oct_is_top, hst, Option.some.injEq]
    cases hdn : oo.is_dense with
    | true =>
      rw [is_top_half_dense_iff oo o.dim hdn]
      constructor
      · intro h
        exact ⟨oo, rfl, h⟩
      · rintro ⟨oo', h1, h2⟩
        subst h1
        exact h2
    | false =>
      obtain ⟨hbnd, hdis⟩ := hwf oo hst hdn
      rw [is_top_half_sparse_iff oo o.dim hdn hbnd hdis]
      constructor
      · intro h
        exact ⟨oo, rfl, h⟩
      · rintro ⟨oo', h1, h2⟩
        subst h1
        exact h2

theorem opt_oct_is_top_trivial_spec_witness :
    opt_oct_is_top man0 oct5 = true := by
  apply (opt_oct_is_top_trivial_spec man0 oct5 ?_).mpr
  · refine ⟨topMat1, rfl, ?_⟩
    intro i hi j hj
    have hi' : i < 2 := by simpa [oct5] using hi
    have hj' : j < 2 := by simpa [oct5] using hj
    have hi2 : i = 0 ∨ i = 1 := by omega
    have hj2 : j = 0 ∨ j = 1 := by omega
    rcases hi2 with h | h <;> rcases hj2 with h' | h' <;> subst h <;> subst h' <;> decide
  · intro oo h
    cases Option.some.inj h
    intro hdn
    exact absurd hdn (by decide)
